import Mathlib

/-!
Shallow embedding of the embedding index engine in `src/embedding_server.py`.

The engine keeps a unified mutable state: a document store (`documents`,
a Python dict from id to text+metadata, insertion ordered), a row-order
list (`id_list`), an embedding cache (`embeddings`, dict from id to
vector) and a FAISS flat index, modelled here as the ordered list of its
rows.  The external collaborators are abstracted: the sentence
transformer is a function `encode : String → Option V` (`none` models a
raised exception), FAISS L2-normalisation is a function
`normalize : V → V` (instantiated with the real normalisation over
`List ℝ` for the numerical claim), and the k-nearest-neighbour kernel of
the flat index is a function `knn` returning `(row index, distance)`
pairs, as `index.search` does.  File persistence is modelled by the
`Snapshot` structure holding exactly what `save_state` writes.
-/

namespace EmbSrv

/-- Metadata mapping of a document (a JSON object in the source). -/
abbrev Meta := List (String × String)

/-- A stored document: the value of `state["documents"][doc_id]`. -/
structure StoredDoc where
  text : String
  metadata : Meta
  deriving DecidableEq

/-- An incoming request document: `data.get` returns `None` for missing
fields, modelled by `Option`. -/
structure ReqDoc where
  id? : Option String
  text? : Option String
  metadata? : Option Meta
  deriving DecidableEq

/-- The unified server state plus the FAISS index (`index` is the ordered
list of the rows of the flat index). -/
structure ServerState (V : Type) where
  documents : List (String × StoredDoc)
  id_list : List String
  embeddings : List (String × V)
  index : List V
  deriving DecidableEq

/-- Fresh empty state, as created by `init_faiss` and `clear_index`. -/
def emptyState {V : Type} : ServerState V := ⟨[], [], [], []⟩

/-! Python dict operations on insertion-ordered association lists whose
keys are unique by construction: assignment overwrites in place or
appends a new key at the end, `del` removes the key, membership tests
keys. -/

/-- Keys of a dict, in insertion order. -/
def keys {α : Type} (m : List (String × α)) : List String := m.map Prod.fst

/-- Python `k in m` key-membership test. -/
def keyMem {α : Type} (m : List (String × α)) (k : String) : Bool :=
  (keys m).contains k

/-- Python `m[k]` lookup (as `Option` instead of `KeyError`). -/
def dictGet {α : Type} (m : List (String × α)) (k : String) : Option α :=
  (m.find? (fun p => p.1 == k)).map Prod.snd

/-- Python `m[k] = v`: overwrite in place if the key exists, else append. -/
def dictSet {α : Type} (m : List (String × α)) (k : String) (v : α) :
    List (String × α) :=
  if keyMem m k then m.map (fun p => if p.1 = k then (k, v) else p)
  else m ++ [(k, v)]

/-- Python `del m[k]`. -/
def dictDel {α : Type} (m : List (String × α)) (k : String) :
    List (String × α) :=
  m.filter (fun p => !(p.1 == k))

/-- Map a fallible function over a list, failing if any element fails
(a raised exception inside a list comprehension or a batch call). -/
def mapOpt {α β : Type} (f : α → Option β) : List α → Option (List β)
  | [] => some []
  | a :: l =>
    match f a with
    | none => none
    | some b => (mapOpt f l).map (fun bs => b :: bs)

/-- Python list indexing `l[i]` with negative-index wrap-around;
`none` models an `IndexError`. -/
def pyGet {α : Type} (l : List α) (i : Int) : Option α :=
  if 0 ≤ i then l.get? i.toNat
  else if 0 ≤ (l.length : Int) + i then l.get? ((l.length : Int) + i).toNat
  else none

/-! Responses of the HTTP handlers (the JSON payload and status code,
reduced to the fields the spec talks about). -/

/-- Response of `add_document`. -/
inductive AddResp where
  | success (id : String)
  | error (code : Nat)
  deriving DecidableEq

/-- Response of `add_documents_batch` (`emptyOk` is the `{"added": 0}`
short-circuit on an empty input list). -/
inductive BatchResp where
  | emptyOk
  | success (added total : Nat)
  | error (code : Nat)
  deriving DecidableEq

/-- One search hit: `{id, score, text, metadata}`. -/
structure SearchResult where
  id : String
  score : ℚ
  text : String
  metadata : Meta
  deriving DecidableEq

/-- Response of `search`. -/
inductive SearchResp where
  | ok (results : List SearchResult)
  | error (code : Nat)
  deriving DecidableEq

/-- Response of `delete_document`. -/
inductive DeleteResp where
  | success
  | error (code : Nat)
  deriving DecidableEq

variable {V : Type}

/-- The `/index/add` handler.  Validation (`not doc_id or not text`)
happens before encoding; on encoder failure the caught exception yields
a 500 with no state change; on success the vector is appended to the
index, the document stored, the id appended to the row order and the
vector cached. -/
def add_document (encode : String → Option V) (normalize : V → V)
    (st : ServerState V) (req : ReqDoc) : AddResp × ServerState V :=
  match req.id?, req.text? with
  | some did, some txt =>
    if did = "" ∨ txt = "" then (.error 400, st)
    else
      match encode ("passage: " ++ txt) with
      | none => (.error 500, st)
      | some emb0 =>
        let emb := normalize emb0
        (.success did,
          { documents := dictSet st.documents did ⟨txt, req.metadata?.getD []⟩
            id_list := st.id_list ++ [did]
            embeddings := dictSet st.embeddings did emb
            index := st.index ++ [emb] })
  | _, _ => (.error 400, st)

/-- The per-document loop of `add_documents_batch`, run after the rows
were already appended to the index.  A document lacking `id` (or `text`)
raises a `KeyError` that aborts the loop mid-way (`false`), leaving the
updates of the earlier documents in place. -/
def addBatchLoop (st : ServerState V) : List (ReqDoc × V) → ServerState V × Bool
  | [] => (st, true)
  | (d, v) :: rest =>
    match d.id?, d.text? with
    | some did, some txt =>
      addBatchLoop
        { st with
          documents := dictSet st.documents did ⟨txt, d.metadata?.getD []⟩
          id_list := st.id_list ++ [did]
          embeddings := dictSet st.embeddings did v }
        rest
    | _, _ => (st, false)

/-- The `/index/add-batch` handler.  An empty list short-circuits; the
text list comprehension raises on a document without `text`; the batch
encode either yields one vector per text or raises; the vectors are
normalised and appended to the index in one call, and only then does the
per-document loop update the three state structures. -/
def add_documents_batch (encode : String → Option V) (normalize : V → V)
    (st : ServerState V) (docs : List ReqDoc) : BatchResp × ServerState V :=
  if docs.isEmpty then (.emptyOk, st)
  else
    match mapOpt (fun d => d.text?) docs with
    | none => (.error 500, st)
    | some txts =>
      match mapOpt (fun t => encode ("passage: " ++ t)) txts with
      | none => (.error 500, st)
      | some embs0 =>
        let embs := embs0.map normalize
        let st1 := { st with index := st.index ++ embs }
        match addBatchLoop st1 (docs.zip embs) with
        | (st2, true) => (.success docs.length st2.id_list.length, st2)
        | (st2, false) => (.error 500, st2)

/-- Result assembly of `search`: walk the `(row index, distance)` pairs
in order, skip `-1` and out-of-range rows, translate the row through
`id_list` (Python indexing) and look the document up; a failed lookup is
a raised exception (`none`) failing the whole request. -/
def collectResults (st : ServerState V) :
    List (Int × ℚ) → Option (List SearchResult)
  | [] => some []
  | p :: ps =>
    if p.1 = -1 ∨ (st.id_list.length : Int) ≤ p.1 then collectResults st ps
    else
      match pyGet st.id_list p.1 with
      | none => none
      | some did =>
        match dictGet st.documents did with
        | none => none
        | some doc =>
          (collectResults st ps).map
            (fun rs => ⟨did, p.2, doc.text, doc.metadata⟩ :: rs)

/-- The `/index/search` handler.  Rejects a falsy query, encodes with the
`query: ` framing, returns an empty result list on an empty index, else
delegates to the flat index's nearest-neighbour kernel `knn` and maps row
indices back through the row order.  It never writes the state, which is
returned unchanged. -/
def search (encode : String → Option V)
    (knn : List V → V → Nat → List (Int × ℚ))
    (st : ServerState V) (query? : Option String) (topk? : Option Nat) :
    SearchResp × ServerState V :=
  (match query? with
   | none => .error 400
   | some q =>
     if q = "" then .error 400
     else
       match encode ("query: " ++ q) with
       | none => .error 500
       | some qv =>
         if st.index.length = 0 then .ok []
         else
           match collectResults st (knn st.index qv (topk?.getD 5)) with
           | none => .error 500
           | some rs => .ok rs,
   st)

/-- The `/index/clear` handler: all structures replaced by empty ones. -/
def clear_index (_st : ServerState V) : ServerState V := emptyState

/-- The `/index/document/<doc_id>` DELETE handler.  A missing id is a
404; otherwise the three trackers are mutated in program order inside the
`try` block (each step can raise, leaving the earlier mutations in
place), the index is replaced by a fresh empty one and, when the row
order is non-empty, rebuilt from the cached vectors in the exact order of
the updated row order. -/
def delete_document (st : ServerState V) (did : String) :
    DeleteResp × ServerState V :=
  if keyMem st.documents did = false then (.error 404, st)
  else
    let st1 : ServerState V := { st with documents := dictDel st.documents did }
    if st1.id_list.contains did = false then (.error 500, st1)
    else
      let st2 : ServerState V := { st1 with id_list := st1.id_list.erase did }
      if keyMem st2.embeddings did = false then (.error 500, st2)
      else
        let st3 : ServerState V :=
          { st2 with embeddings := dictDel st2.embeddings did, index := [] }
        if st3.id_list.isEmpty then (.success, st3)
        else
          match mapOpt (fun i => dictGet st3.embeddings i) st3.id_list with
          | none => (.error 500, st3)
          | some vecs => (.success, { st3 with index := vecs })

/-- One row of the `/index/documents` projection. -/
structure DocRow where
  id : String
  title : String
  content : String
  category : String
  createdBy : String
  deriving DecidableEq

/-- Python `meta.get(k, dflt)`. -/
def metaGetD (m : Meta) (k dflt : String) : String := (dictGet m k).getD dflt

/-- The `/index/documents` handler: project every stored document into a
display row with sentinel defaults; missing content falls back to the raw
text. -/
def get_documents (st : ServerState V) : List DocRow :=
  st.documents.map (fun p =>
    ⟨p.1,
     metaGetD p.2.metadata "title" "Untitled",
     metaGetD p.2.metadata "content" p.2.text,
     metaGetD p.2.metadata "category" "General",
     metaGetD p.2.metadata "createdBy" "System"⟩)

/-- The persisted snapshot: the index artifact (the flat index's rows,
round-tripped by FAISS's own serialiser) together with the state
artifact (the JSON dump of the unified state dictionary). -/
structure Snapshot (V : Type) where
  indexRows : List V
  documents : List (String × StoredDoc)
  id_list : List String
  embeddings : List (String × V)
  deriving DecidableEq

/-- `save_state`: write the index artifact and the state artifact
together. -/
def save_state (st : ServerState V) : Snapshot V :=
  ⟨st.index, st.documents, st.id_list, st.embeddings⟩

/-- The loading branch of `init_faiss`: with both artifacts present and
parseable the state and index are adopted wholesale; otherwise the engine
starts empty. -/
def init_faiss : Option (Snapshot V) → ServerState V
  | none => emptyState
  | some snap => ⟨snap.documents, snap.id_list, snap.embeddings, snap.indexRows⟩

/-! The mutating operations as a transition system, for the
invariant-preservation claim. -/

/-- A mutating API call. -/
inductive Op where
  | add (req : ReqDoc)
  | addBatch (docs : List ReqDoc)
  | delete (did : String)
  | clear
  deriving DecidableEq

/-- Apply one mutating call to the state (the response is discarded). -/
def stepOp (encode : String → Option V) (normalize : V → V)
    (st : ServerState V) : Op → ServerState V
  | .add req => (add_document encode normalize st req).2
  | .addBatch docs => (add_documents_batch encode normalize st docs).2
  | .delete did => (delete_document st did).2
  | .clear => clear_index st

/-- Run a sequence of mutating calls from the empty state. -/
def runOps (encode : String → Option V) (normalize : V → V)
    (ops : List Op) : ServerState V :=
  ops.foldl (stepOp encode normalize) emptyState

/-- The equal-cardinalities property of the spec: row-order length =
index row count = number of document-store keys = number of
embedding-cache keys. -/
def countsEqual (st : ServerState V) : Prop :=
  st.id_list.length = st.index.length ∧
  (keys st.documents).dedup.length = st.id_list.length ∧
  (keys st.embeddings).dedup.length = st.id_list.length

/-- Well-formedness of a state: the intended 1:1 correspondence between
the three structures and the index rows. -/
def StateWF (st : ServerState V) : Prop :=
  keys st.documents = st.id_list ∧
  keys st.embeddings = st.id_list ∧
  st.id_list.Nodup ∧
  st.index.length = st.id_list.length

/-- A single add is benign when its id, if present, is fresh. -/
def addOk (st : ServerState V) (req : ReqDoc) : Prop :=
  ∀ i, req.id? = some i → keyMem st.documents i = false

/-- A batch is benign when every document carries an id and the ids are
pairwise distinct and all fresh. -/
def batchOk (st : ServerState V) (docs : List ReqDoc) : Prop :=
  (∀ d ∈ docs, d.id?.isSome) ∧
  (docs.filterMap (fun d => d.id?)).Nodup ∧
  (∀ i ∈ docs.filterMap (fun d => d.id?), keyMem st.documents i = false)

/-- A call is benign when any id it successfully inserts is fresh.
Deletions and clears are always benign. -/
def goodOp (st : ServerState V) : Op → Prop
  | .add req => addOk st req
  | .addBatch docs => batchOk st docs
  | .delete _ => True
  | .clear => True

/-- Every call of the run is benign in the state where it executes. -/
def goodRun (encode : String → Option V) (normalize : V → V) :
    ServerState V → List Op → Prop
  | _, [] => True
  | st, op :: ops =>
    goodOp st op ∧ goodRun encode normalize (stepOp encode normalize st op) ops

instance countsEqualDecidable (st : ServerState V) : Decidable (countsEqual st) := by
  unfold countsEqual; infer_instance

instance stateWFDecidable (st : ServerState V) : Decidable (StateWF st) := by
  unfold StateWF; infer_instance

instance addOkDecidable (st : ServerState V) (req : ReqDoc) :
    Decidable (addOk st req) :=
  match h : req.id? with
  | none => .isTrue (fun i hi => by rw [h] at hi; cases hi)
  | some j =>
    decidable_of_iff (keyMem st.documents j = false)
      ⟨fun hk i hi => by rw [h] at hi; cases hi; exact hk, fun ha => ha j h⟩

instance batchOkDecidable (st : ServerState V) (docs : List ReqDoc) :
    Decidable (batchOk st docs) := by
  unfold batchOk; infer_instance

instance goodOpDecidable (st : ServerState V) : (op : Op) → Decidable (goodOp st op)
  | .add req => addOkDecidable st req
  | .addBatch docs => batchOkDecidable st docs
  | .delete _ => .isTrue trivial
  | .clear => .isTrue trivial

instance goodRunDecidable (encode : String → Option V) (normalize : V → V) :
    ∀ (st : ServerState V) (ops : List Op),
      Decidable (goodRun encode normalize st ops)
  | _, [] => .isTrue trivial
  | st, op :: ops =>
    haveI : Decidable (goodRun encode normalize (stepOp encode normalize st op) ops) :=
      goodRunDecidable encode normalize _ ops
    (inferInstance : Decidable (_ ∧ _))

/-! The numerical model of FAISS L2-normalisation over real vectors, used
to state the normalisation claim: `faiss.normalize_L2` divides every entry
of a vector by the vector's Euclidean norm. -/

/-- Sum of squares of the entries of a vector. -/
noncomputable def sumSq (v : List ℝ) : ℝ := (v.map (fun x => x * x)).sum

/-- Euclidean (L2) norm of a vector. -/
noncomputable def l2norm (v : List ℝ) : ℝ := Real.sqrt (sumSq v)

/-- FAISS `normalize_L2`: divide every entry by the L2 norm. -/
noncomputable def normalizeL2 (v : List ℝ) : List ℝ :=
  v.map (fun x => x / Real.sqrt (sumSq v))

/-! Concrete instantiations of the external collaborators and small
well-formed states, used to exercise the theorems on closed inputs. -/

/-- A trivial encoder over the unit vector type: always succeeds. -/
def unitEncode : String → Option Unit := fun _ => some ()

/-- Normalisation over the unit vector type. -/
def unitNorm : Unit → Unit := fun v => v

/-- A nearest-neighbour kernel returning no rows. -/
def noKnn : List Unit → Unit → Nat → List (Int × ℚ) := fun _ _ _ => []

/-- A well-formed one-document state. -/
def oneDocState : ServerState Unit :=
  ⟨[("a", ⟨"t", []⟩)], ["a"], [("a", ())], [()]⟩

/-- A well-formed two-document state. -/
def twoDocState : ServerState Unit :=
  ⟨[("a", ⟨"ta", []⟩), ("b", ⟨"tb", []⟩)], ["a", "b"],
   [("a", ()), ("b", ())], [(), ()]⟩

/-! Lemmas about the Python-dict model. -/

theorem keys_append (m : List (String × α)) (k : String) (v : α) :
    keys (m ++ [(k, v)]) = keys m ++ [k] := by
  simp [keys]

theorem keyMem_iff {m : List (String × α)} {k : String} :
    keyMem m k = true ↔ k ∈ keys m := List.elem_iff

theorem keyMem_false_iff {m : List (String × α)} {k : String} :
    keyMem m k = false ↔ k ∉ keys m := by
  rw [← Bool.not_eq_true, not_iff_not]; exact List.elem_iff

theorem dictSet_fresh {m : List (String × α)} {k : String} (v : α)
    (h : keyMem m k = false) : dictSet m k v = m ++ [(k, v)] := by
  simp [dictSet, h]

theorem keys_dictSet_of_mem {m : List (String × α)} {k : String} (v : α)
    (h : keyMem m k = true) : keys (dictSet m k v) = keys m := by
  simp only [dictSet, h, if_true]
  simp only [keys, List.map_map]
  refine List.map_congr_left (fun p _ => ?_)
  by_cases hp : p.1 = k <;> simp [hp]

theorem dictGet_eq_none_of_not_mem {m : List (String × α)} {k : String}
    (h : k ∉ keys m) : dictGet m k = none := by
  have : m.find? (fun p => p.1 == k) = none := by
    rw [List.find?_eq_none]
    intro p hp hk
    exact h (List.mem_map.mpr ⟨p, hp, by simpa using hk⟩)
  simp [dictGet, this]

theorem mem_keys_cons {p : String × α} {m : List (String × α)} {k : String}
    (h : k ∈ keys (p :: m)) : k = p.1 ∨ k ∈ keys m :=
  List.mem_cons.mp h

theorem find?_map_update {m : List (String × α)} {k : String} (v : α)
    (h : k ∈ keys m) :
    (m.map (fun p => if p.1 = k then (k, v) else p)).find? (fun p => p.1 == k)
      = some (k, v) := by
  induction m with
  | nil => simp [keys] at h
  | cons p m ih =>
    by_cases hp : p.1 = k
    · simp [hp]
    · have h' : k ∈ keys m := by
        rcases mem_keys_cons h with h0 | h0
        · exact absurd h0.symm hp
        · exact h0
      simpa [hp, List.find?_cons, show (p.1 == k) = false by simpa using hp]
        using ih h'

theorem dictGet_dictSet_self {m : List (String × α)} {k : String} (v : α) :
    dictGet (dictSet m k v) k = some v := by
  by_cases h : keyMem m k
  · simp only [dictSet, h, if_true, dictGet, find?_map_update v (keyMem_iff.mp h)]
    rfl
  · rw [dictSet_fresh v (by simpa using h), dictGet]
    have hnone : m.find? (fun p => p.1 == k) = none := by
      rw [List.find?_eq_none]
      intro p hp hk
      exact (keyMem_false_iff.mp (by simpa using h))
        (List.mem_map.mpr ⟨p, hp, by simpa using hk⟩)
    rw [List.find?_append, hnone]
    simp

theorem find?_map_update_ne {m : List (String × α)} {k x : String} (v : α)
    (h : x ≠ k) :
    (m.map (fun p => if p.1 = k then (k, v) else p)).find? (fun p => p.1 == x)
      = m.find? (fun p => p.1 == x) := by
  induction m with
  | nil => rfl
  | cons p m ih =>
    by_cases hp : p.1 = k
    · have h1 : (p.1 == x) = false := by rw [hp]; simpa using Ne.symm h
      have h2 : ((k : String) == x) = false := by simpa using Ne.symm h
      simp only [List.map_cons, if_pos hp, List.find?_cons, h1, h2]
      exact ih
    · simp only [List.map_cons, if_neg hp, List.find?_cons]
      by_cases px : p.1 = x
      · simp [px]
      · simp only [show (p.1 == x) = false by simpa using px]
        exact ih

theorem dictGet_dictSet_ne {m : List (String × α)} {k x : String} (v : α)
    (h : x ≠ k) : dictGet (dictSet m k v) x = dictGet m x := by
  by_cases hm : keyMem m k
  · simp only [dictSet, hm, if_true, dictGet, find?_map_update_ne v h]
  · rw [dictSet_fresh v (by simpa using hm), dictGet, List.find?_append]
    have hone : ([(k, v)].find? (fun p => p.1 == x)) = none := by
      simp [show ((k : String) == x) = false by simpa using Ne.symm h]
    cases hf : m.find? (fun p => p.1 == x) <;> simp [dictGet, hone, hf]

theorem dictGet_isSome_of_mem {m : List (String × α)} {k : String}
    (h : k ∈ keys m) : (dictGet m k).isSome = true := by
  induction m with
  | nil => simp [keys] at h
  | cons p m ih =>
    by_cases hp : p.1 = k
    · simp [dictGet, hp]
    · have h' : k ∈ keys m := by
        rcases mem_keys_cons h with h0 | h0
        · exact absurd h0.symm hp
        · exact h0
      simpa [dictGet, List.find?_cons, show (p.1 == k) = false by simpa using hp]
        using ih h'

theorem keys_dictDel (m : List (String × α)) (k : String) :
    keys (dictDel m k) = (keys m).filter (fun x => !(x == k)) := by
  simp only [dictDel, keys]
  induction m with
  | nil => rfl
  | cons p m ih => by_cases hp : p.1 = k <;> simp [hp, ih]

theorem find?_filter_ne {m : List (String × α)} {k x : String} (h : x ≠ k) :
    (m.filter (fun p => !(p.1 == k))).find? (fun p => p.1 == x)
      = m.find? (fun p => p.1 == x) := by
  induction m with
  | nil => rfl
  | cons p m ih =>
    by_cases hp : p.1 = k
    · have h1 : (p.1 == x) = false := by rw [hp]; simpa using Ne.symm h
      simp only [List.filter_cons, show (p.1 == k) = true by simpa using hp,
        Bool.not_true, List.find?_cons, h1]
      exact ih
    · simp only [List.filter_cons, show (p.1 == k) = false by simpa using hp,
        Bool.not_false, if_true, List.find?_cons]
      by_cases px : p.1 = x
      · simp [px]
      · simp only [show (p.1 == x) = false by simpa using px]
        exact ih

theorem dictGet_dictDel_ne {m : List (String × α)} {k x : String}
    (h : x ≠ k) : dictGet (dictDel m k) x = dictGet m x := by
  simp only [dictDel, dictGet, find?_filter_ne h]

/-! Lemmas about `mapOpt` and `pyGet`. -/

theorem mapOpt_length {f : α → Option β} :
    ∀ {l : List α} {l' : List β}, mapOpt f l = some l' → l'.length = l.length
  | [], l', h => by simp [mapOpt] at h; simp [← h]
  | a :: l, l', h => by
    cases hf : f a with
    | none => simp [mapOpt, hf] at h
    | some b =>
      cases hl : mapOpt f l with
      | none => simp [mapOpt, hf, hl] at h
      | some bs =>
        simp [mapOpt, hf, hl] at h
        simp [← h, mapOpt_length hl]

theorem mapOpt_isSome_of_forall {f : α → Option β} :
    ∀ {l : List α}, (∀ a ∈ l, (f a).isSome) → ∃ l', mapOpt f l = some l'
  | [], _ => ⟨[], rfl⟩
  | a :: l, h => by
    cases hf : f a with
    | none => simpa [hf] using h a (by simp)
    | some b =>
      obtain ⟨l', hl⟩ :=
        mapOpt_isSome_of_forall (l := l) (fun x hx => h x (List.mem_cons_of_mem _ hx))
      exact ⟨b :: l', by simp [mapOpt, hf, hl]⟩

theorem mapOpt_forall_isSome {f : α → Option β} :
    ∀ {l : List α} {l' : List β}, mapOpt f l = some l' →
      ∀ a ∈ l, (f a).isSome
  | [], _, _, a, ha => by simp at ha
  | x :: l, l', h, a, ha => by
    cases hf : f x with
    | none => simp [mapOpt, hf] at h
    | some b =>
      cases hl : mapOpt f l with
      | none => simp [mapOpt, hf, hl] at h
      | some bs =>
        rcases (by simpa using ha : a = x ∨ a ∈ l) with rfl | ha'
        · simp [hf]
        · exact mapOpt_forall_isSome hl a ha'

theorem filterMap_length_of_forall_isSome {f : α → Option β} :
    ∀ {l : List α}, (∀ a ∈ l, (f a).isSome) →
      (l.filterMap f).length = l.length
  | [], _ => rfl
  | a :: l, h => by
    cases hf : f a with
    | none => simpa [hf] using h a (by simp)
    | some b =>
      simp [List.filterMap_cons, hf,
        filterMap_length_of_forall_isSome (l := l)
          (fun x hx => h x (List.mem_cons_of_mem _ hx))]

theorem pyGet_mem {l : List α} {i : Int} {a : α} (h : pyGet l i = some a) :
    a ∈ l := by
  unfold pyGet at h
  split at h
  · exact List.get?_mem h
  · split at h
    · exact List.get?_mem h
    · cases h

/-! Behaviour of `add_document`. -/

theorem add_document_invalid (encode : String → Option V) (normalize : V → V)
    (st : ServerState V) (req : ReqDoc)
    (h : req.id? = none ∨ req.id? = some "" ∨ req.text? = none ∨
      req.text? = some "") :
    add_document encode normalize st req = (.error 400, st) := by
  obtain ⟨oid, otxt, ometa⟩ := req
  dsimp only at h
  rcases h with rfl | rfl | rfl | rfl
  · simp [add_document]
  · cases otxt <;> simp [add_document]
  · cases oid <;> simp [add_document]
  · cases oid <;> simp [add_document]

theorem add_document_success (encode : String → Option V) (normalize : V → V)
    (st : ServerState V) (req : ReqDoc) (did txt : String) (v : V)
    (hid : req.id? = some did) (htxt : req.text? = some txt)
    (hdid : did ≠ "") (htxt0 : txt ≠ "")
    (henc : encode ("passage: " ++ txt) = some v) :
    add_document encode normalize st req =
      (.success did,
        { documents := dictSet st.documents did ⟨txt, req.metadata?.getD []⟩
          id_list := st.id_list ++ [did]
          embeddings := dictSet st.embeddings did (normalize v)
          index := st.index ++ [normalize v] }) := by
  obtain ⟨oid, otxt, ometa⟩ := req
  dsimp only at hid htxt
  subst hid htxt
  simp [add_document, hdid, htxt0, henc]

theorem add_document_encode_fail (encode : String → Option V) (normalize : V → V)
    (st : ServerState V) (req : ReqDoc) (did txt : String)
    (hid : req.id? = some did) (htxt : req.text? = some txt)
    (hdid : did ≠ "") (htxt0 : txt ≠ "")
    (henc : encode ("passage: " ++ txt) = none) :
    add_document encode normalize st req = (.error 500, st) := by
  obtain ⟨oid, otxt, ometa⟩ := req
  dsimp only at hid htxt
  subst hid htxt
  simp [add_document, hdid, htxt0, henc]

theorem add_document_error_state {encode : String → Option V} {normalize : V → V}
    {st : ServerState V} {req : ReqDoc} {c : Nat}
    (h : (add_document encode normalize st req).1 = .error c) :
    (add_document encode normalize st req).2 = st := by
  obtain ⟨oid, otxt, ometa⟩ := req
  cases oid with
  | none => simp [add_document]
  | some did =>
    cases otxt with
    | none => simp [add_document]
    | some txt =>
      by_cases h0 : did = "" ∨ txt = ""
      · simp [add_document, h0]
      · cases henc : encode ("passage: " ++ txt) with
        | none => simp [add_document, h0, henc]
        | some v => simp [add_document, h0, henc] at h

/-! Behaviour of `search`. -/

theorem collectResults_mem {st : ServerState V} :
    ∀ {ps : List (Int × ℚ)} {rs : List SearchResult},
      collectResults st ps = some rs → ∀ r ∈ rs,
        r.id ∈ st.id_list ∧ dictGet st.documents r.id = some ⟨r.text, r.metadata⟩
  | [], rs, h, r, hr => by
    simp only [collectResults, Option.some.injEq] at h
    subst h; simp at hr
  | p :: ps, rs, h, r, hr => by
    by_cases hg : p.1 = -1 ∨ (st.id_list.length : Int) ≤ p.1
    · rw [collectResults, if_pos hg] at h
      exact collectResults_mem h r hr
    · rw [collectResults, if_neg hg] at h
      cases hpg : pyGet st.id_list p.1 with
      | none => rw [hpg] at h; cases h
      | some did =>
        rw [hpg] at h
        dsimp only at h
        cases hdg : dictGet st.documents did with
        | none => rw [hdg] at h; cases h
        | some doc =>
          rw [hdg] at h
          dsimp only at h
          cases hcr : collectResults st ps with
          | none => rw [hcr] at h; cases h
          | some rs' =>
            rw [hcr] at h
            simp only [Option.map_some', Option.some.injEq] at h
            subst h
            rcases List.mem_cons.mp hr with rfl | hr'
            · exact ⟨pyGet_mem hpg, hdg⟩
            · exact collectResults_mem hcr r hr'

theorem search_ok_mem {encode : String → Option V}
    {knn : List V → V → Nat → List (Int × ℚ)} {st : ServerState V}
    {q? : Option String} {k? : Option Nat} {rs : List SearchResult}
    (h : (search encode knn st q? k?).1 = .ok rs) :
    ∀ r ∈ rs, r.id ∈ st.id_list ∧
      dictGet st.documents r.id = some ⟨r.text, r.metadata⟩ := by
  cases q? with
  | none => simp [search] at h
  | some q =>
    by_cases hq : q = ""
    · simp [search, hq] at h
    · cases henc : encode ("query: " ++ q) with
      | none => simp [search, hq, henc] at h
      | some qv =>
        by_cases hidx : st.index.length = 0
        · simp [search, hq, henc, hidx] at h
          subst h
          intro r hr
          simp at hr
        · cases hcr : collectResults st (knn st.index qv (k?.getD 5)) with
          | none => simp [search, hq, henc, hidx, hcr] at h
          | some rs' =>
            simp [search, hq, henc, hidx, hcr] at h
            subst h
            exact collectResults_mem hcr

/-! Behaviour of `delete_document`. -/

theorem delete_document_notfound {st : ServerState V} {did : String}
    (h : keyMem st.documents did = false) :
    delete_document st did = (.error 404, st) := by
  simp [delete_document, h]

theorem delete_document_found {st : ServerState V} {did : String}
    (wf : StateWF st) (hmem : keyMem st.documents did = true) :
    (delete_document st did).1 = .success ∧
    (delete_document st did).2.documents = dictDel st.documents did ∧
    (delete_document st did).2.id_list = st.id_list.erase did ∧
    (delete_document st did).2.embeddings = dictDel st.embeddings did ∧
    mapOpt (fun i => dictGet (dictDel st.embeddings did) i) (st.id_list.erase did)
      = some (delete_document st did).2.index := by
  obtain ⟨hd, he, hnd, hlen⟩ := wf
  have hmem_list : did ∈ st.id_list := hd ▸ keyMem_iff.mp hmem
  have hcont : st.id_list.contains did = true := List.elem_iff.mpr hmem_list
  have hkeyE : keyMem st.embeddings did = true :=
    keyMem_iff.mpr (he.symm ▸ hmem_list)
  have hforall : ∀ i ∈ st.id_list.erase did,
      (dictGet (dictDel st.embeddings did) i).isSome := by
    intro i hi
    have hi' := hnd.mem_erase_iff.mp hi
    rw [dictGet_dictDel_ne hi'.1]
    exact dictGet_isSome_of_mem (he.symm ▸ hi'.2)
  by_cases hemp : (st.id_list.erase did).isEmpty
  · have herase : st.id_list.erase did = [] := List.isEmpty_iff.mp hemp
    simp [delete_document, hmem, hcont, hkeyE, hemp, herase, mapOpt, hmem_list]
  · obtain ⟨vecs, hvecs⟩ := mapOpt_isSome_of_forall hforall
    simp [delete_document, hmem, hcont, hkeyE, hemp, hvecs, hmem_list]

theorem delete_document_wf {st : ServerState V} {did : String}
    (wf : StateWF st) : StateWF (delete_document st did).2 := by
  by_cases hmem : keyMem st.documents did
  · obtain ⟨hsucc, hdocs, hidl, hemb, hmap⟩ := delete_document_found wf hmem
    obtain ⟨hd, he, hnd, hlen⟩ := wf
    refine ⟨?_, ?_, ?_, ?_⟩
    · rw [hdocs, keys_dictDel, hd, hidl, hnd.erase_eq_filter]
      rfl
    · rw [hemb, keys_dictDel, he, hidl, hnd.erase_eq_filter]
      rfl
    · rw [hidl]; exact hnd.erase did
    · rw [hidl, ← mapOpt_length hmap]
  · rw [delete_document_notfound (by simpa using hmem)]
    exact wf

theorem delete_document_error_state {st : ServerState V} {did : String} {c : Nat}
    (wf : StateWF st) (h : (delete_document st did).1 = .error c) :
    (delete_document st did).2 = st := by
  by_cases hmem : keyMem st.documents did
  · have hs := (delete_document_found wf hmem).1
    rw [hs] at h; cases h
  · rw [delete_document_notfound (by simpa using hmem)]

/-! Behaviour of `add_documents_batch`. -/

theorem exists_zip_mem {α β : Type} :
    ∀ {l₁ : List α} {l₂ : List β} {a : α}, l₁.length = l₂.length →
      a ∈ l₁ → ∃ b, (a, b) ∈ l₁.zip l₂
  | [], _, a, _, ha => by simp at ha
  | x :: l₁, [], a, h, _ => by simp at h
  | x :: l₁, y :: l₂, a, h, ha => by
    rcases List.mem_cons.mp ha with rfl | ha'
    · exact ⟨y, by simp⟩
    · obtain ⟨b, hb⟩ := exists_zip_mem (by simpa using h) ha'
      exact ⟨b, by simp [List.zip_cons_cons, List.mem_cons.mpr (Or.inr hb)]⟩

theorem add_documents_batch_abort {encode : String → Option V}
    {normalize : V → V} {st : ServerState V} {docs : List ReqDoc}
    (hne : docs ≠ [])
    (h : (mapOpt (fun d => d.text?) docs).bind
      (fun txts => mapOpt (fun t => encode ("passage: " ++ t)) txts) = none) :
    add_documents_batch encode normalize st docs = (.error 500, st) := by
  have hne' : docs.isEmpty = false := by
    cases docs with
    | nil => exact absurd rfl hne
    | cons d ds => rfl
  cases htxts : mapOpt (fun d => d.text?) docs with
  | none => simp [add_documents_batch, hne', htxts]
  | some txts =>
    rw [htxts] at h
    simp only [Option.some_bind] at h
    cases hembs : mapOpt (fun t => encode ("passage: " ++ t)) txts with
    | none => simp [add_documents_batch, hne', htxts, hembs]
    | some embs0 => rw [hembs] at h; cases h

theorem addBatchLoop_spec :
    ∀ (pairs : List (ReqDoc × V)) (st : ServerState V),
      (∀ p ∈ pairs, p.1.id?.isSome ∧ p.1.text?.isSome) →
      (pairs.filterMap (fun p => p.1.id?)).Nodup →
      (∀ i ∈ pairs.filterMap (fun p => p.1.id?),
        i ∉ keys st.documents ∧ i ∉ keys st.embeddings) →
      (addBatchLoop st pairs).2 = true ∧
      (addBatchLoop st pairs).1.id_list
        = st.id_list ++ pairs.filterMap (fun p => p.1.id?) ∧
      keys (addBatchLoop st pairs).1.documents
        = keys st.documents ++ pairs.filterMap (fun p => p.1.id?) ∧
      keys (addBatchLoop st pairs).1.embeddings
        = keys st.embeddings ++ pairs.filterMap (fun p => p.1.id?) ∧
      (addBatchLoop st pairs).1.index = st.index ∧
      (∀ k, k ∉ pairs.filterMap (fun p => p.1.id?) →
        dictGet (addBatchLoop st pairs).1.documents k = dictGet st.documents k ∧
        dictGet (addBatchLoop st pairs).1.embeddings k = dictGet st.embeddings k) ∧
      (∀ p ∈ pairs, ∀ i t, p.1.id? = some i → p.1.text? = some t →
        dictGet (addBatchLoop st pairs).1.documents i
          = some ⟨t, p.1.metadata?.getD []⟩ ∧
        dictGet (addBatchLoop st pairs).1.embeddings i = some p.2)
  | [], st, _, _, _ => by
    refine ⟨rfl, by simp [addBatchLoop], by simp [addBatchLoop],
      by simp [addBatchLoop], rfl, fun k _ => ⟨rfl, rfl⟩, fun p hp => by simp at hp⟩
  | (d, w) :: rest, st, hsome, hnd, hfresh => by
    obtain ⟨hdid, hdtxt⟩ := hsome (d, w) (by simp)
    obtain ⟨did, hdid'⟩ := Option.isSome_iff_exists.mp hdid
    obtain ⟨txt, htxt'⟩ := Option.isSome_iff_exists.mp hdtxt
    dsimp only at hdid' htxt'
    have hids : ((d, w) :: rest).filterMap (fun p => p.1.id?)
        = did :: rest.filterMap (fun p => p.1.id?) := by
      simp [List.filterMap_cons, hdid']
    rw [hids] at hnd hfresh
    have hfreshD : keyMem st.documents did = false :=
      keyMem_false_iff.mpr (hfresh did (by simp)).1
    have hfreshE : keyMem st.embeddings did = false :=
      keyMem_false_iff.mpr (hfresh did (by simp)).2
    have hnotin : did ∉ rest.filterMap (fun p => p.1.id?) :=
      (List.nodup_cons.mp hnd).1
    set st' : ServerState V :=
      { st with
        documents := dictSet st.documents did ⟨txt, d.metadata?.getD []⟩
        id_list := st.id_list ++ [did]
        embeddings := dictSet st.embeddings did w } with hst'
    have hkeysD : keys st'.documents = keys st.documents ++ [did] := by
      rw [hst']; dsimp only; rw [dictSet_fresh _ hfreshD, keys_append]
    have hkeysE : keys st'.embeddings = keys st.embeddings ++ [did] := by
      rw [hst']; dsimp only; rw [dictSet_fresh _ hfreshE, keys_append]
    have ih := addBatchLoop_spec rest st'
      (fun p hp => hsome p (List.mem_cons_of_mem _ hp))
      (List.nodup_cons.mp hnd).2
      (by
        intro i hi
        have hiff := hfresh i (List.mem_cons_of_mem _ hi)
        have hne : i ≠ did := fun e => hnotin (e ▸ hi)
        constructor
        · rw [hkeysD]
          simp only [List.mem_append, List.mem_singleton]
          rintro (h1 | h1)
          · exact hiff.1 h1
          · exact hne h1
        · rw [hkeysE]
          simp only [List.mem_append, List.mem_singleton]
          rintro (h1 | h1)
          · exact hiff.2 h1
          · exact hne h1)
    have hloop : addBatchLoop st ((d, w) :: rest) = addBatchLoop st' rest := by
      rw [addBatchLoop, hdid', htxt']
    obtain ⟨ih1, ih2, ih3, ih4, ih5, ih6, ih7⟩ := ih
    rw [hloop, hids]
    refine ⟨ih1, ?_, ?_, ?_, ?_, ?_, ?_⟩
    · rw [ih2, hst']; dsimp only; rw [List.append_assoc]; rfl
    · rw [ih3, hkeysD, List.append_assoc]; rfl
    · rw [ih4, hkeysE, List.append_assoc]; rfl
    · rw [ih5, hst']
    · intro k hk
      have hk1 : k ≠ did := fun e => hk (e ▸ List.mem_cons_self _ _)
      have hk2 : k ∉ rest.filterMap (fun p => p.1.id?) :=
        fun h1 => hk (List.mem_cons_of_mem _ h1)
      obtain ⟨hp1, hp2⟩ := ih6 k hk2
      constructor
      · rw [hp1, hst']; dsimp only; rw [dictGet_dictSet_ne _ hk1]
      · rw [hp2, hst']; dsimp only; rw [dictGet_dictSet_ne _ hk1]
    · intro p hp i t hpi hpt
      rcases List.mem_cons.mp hp with rfl | hp'
      · dsimp only at hpi hpt
        have hi : i = did := Option.some.inj (hpi.symm.trans hdid')
        have ht : t = txt := Option.some.inj (hpt.symm.trans htxt')
        obtain ⟨hp1, hp2⟩ := ih6 did hnotin
        rw [hi, ht]
        constructor
        · rw [hp1, hst']; dsimp only; rw [dictGet_dictSet_self]
        · rw [hp2, hst']; dsimp only; rw [dictGet_dictSet_self]
      · exact ih7 p hp' i t hpi hpt

theorem add_documents_batch_ok (encode : String → Option V) (normalize : V → V)
    (st : ServerState V) (docs : List ReqDoc) (txts : List String) (embs0 : List V)
    (hne : docs ≠ [])
    (htxts : mapOpt (fun d => d.text?) docs = some txts)
    (hembs : mapOpt (fun t => encode ("passage: " ++ t)) txts = some embs0)
    (hids : ∀ d ∈ docs, d.id?.isSome)
    (hnd : (docs.filterMap (fun d => d.id?)).Nodup)
    (hfresh : ∀ i ∈ docs.filterMap (fun d => d.id?),
      i ∉ keys st.documents ∧ i ∉ keys st.embeddings) :
    (add_documents_batch encode normalize st docs).2.id_list
      = st.id_list ++ docs.filterMap (fun d => d.id?) ∧
    keys (add_documents_batch encode normalize st docs).2.documents
      = keys st.documents ++ docs.filterMap (fun d => d.id?) ∧
    keys (add_documents_batch encode normalize st docs).2.embeddings
      = keys st.embeddings ++ docs.filterMap (fun d => d.id?) ∧
    (add_documents_batch encode normalize st docs).2.index
      = st.index ++ embs0.map normalize ∧
    (∀ d ∈ docs, ∀ i t, d.id? = some i → d.text? = some t →
      dictGet (add_documents_batch encode normalize st docs).2.documents i
        = some ⟨t, d.metadata?.getD []⟩) := by
  have hne' : docs.isEmpty = false := by
    cases docs with
    | nil => exact absurd rfl hne
    | cons _ _ => rfl
  have hlen1 : txts.length = docs.length := mapOpt_length htxts
  have hlen2 : embs0.length = txts.length := mapOpt_length hembs
  have hlen3 : (embs0.map normalize).length = docs.length := by
    rw [List.length_map, hlen2, hlen1]
  have hfst : (docs.zip (embs0.map normalize)).map Prod.fst = docs :=
    List.map_fst_zip docs (embs0.map normalize) (le_of_eq hlen3.symm)
  have hfm : (docs.zip (embs0.map normalize)).filterMap (fun p => p.1.id?)
      = docs.filterMap (fun d => d.id?) := by
    conv_rhs => rw [← hfst]
    exact (List.filterMap_map _ _ _).symm
  have hsome : ∀ p ∈ docs.zip (embs0.map normalize),
      p.1.id?.isSome ∧ p.1.text?.isSome := by
    intro p hp
    obtain ⟨a, b⟩ := p
    have hmem := List.of_mem_zip hp
    exact ⟨hids a hmem.1, mapOpt_forall_isSome htxts a hmem.1⟩
  have hfresh1 : ∀ i ∈ (docs.zip (embs0.map normalize)).filterMap
      (fun p => p.1.id?),
      i ∉ keys ({ st with index := st.index ++ embs0.map normalize } :
        ServerState V).documents ∧
      i ∉ keys ({ st with index := st.index ++ embs0.map normalize } :
        ServerState V).embeddings := by
    intro i hi
    rw [hfm] at hi
    exact hfresh i hi
  obtain ⟨s1, s2, s3, s4, s5, s6, s7⟩ :=
    addBatchLoop_spec (docs.zip (embs0.map normalize))
      { st with index := st.index ++ embs0.map normalize }
      hsome (by rw [hfm]; exact hnd) hfresh1
  have hloop_eq : addBatchLoop
      ({ st with index := st.index ++ embs0.map normalize } : ServerState V)
      (docs.zip (embs0.map normalize))
      = ((addBatchLoop
          ({ st with index := st.index ++ embs0.map normalize } : ServerState V)
          (docs.zip (embs0.map normalize))).1, true) := by
    rw [← s1]
  have hstep : add_documents_batch encode normalize st docs
      = (.success docs.length
          (addBatchLoop
            ({ st with index := st.index ++ embs0.map normalize } : ServerState V)
            (docs.zip (embs0.map normalize))).1.id_list.length,
         (addBatchLoop
           ({ st with index := st.index ++ embs0.map normalize } : ServerState V)
           (docs.zip (embs0.map normalize))).1) := by
    rw [add_documents_batch, if_neg (by simp [hne'])]
    rw [htxts]
    dsimp only
    rw [hembs]
    dsimp only
    rw [hloop_eq]
  refine ⟨?_, ?_, ?_, ?_, ?_⟩
  · rw [hstep]; dsimp only; rw [s2, hfm]
  · rw [hstep]; dsimp only; rw [s3, hfm]
  · rw [hstep]; dsimp only; rw [s4, hfm]
  · rw [hstep]; dsimp only; rw [s5]
  · intro d hd i t hdi hdt
    obtain ⟨w, hw⟩ := exists_zip_mem hlen3.symm hd
    have hres := s7 (d, w) hw i t hdi hdt
    rw [hstep]
    exact hres.1

/-! Preservation of well-formedness. -/

theorem emptyState_wf : StateWF (emptyState (V := V)) :=
  ⟨rfl, rfl, List.nodup_nil, rfl⟩

theorem add_document_wf {encode : String → Option V} {normalize : V → V}
    {st : ServerState V} {req : ReqDoc}
    (wf : StateWF st) (hop : addOk st req) :
    StateWF (add_document encode normalize st req).2 := by
  obtain ⟨oid, otxt, ometa⟩ := req
  cases oid with
  | none => rw [add_document_invalid _ _ _ _ (Or.inl rfl)]; exact wf
  | some did =>
    cases otxt with
    | none =>
      rw [add_document_invalid _ _ _ _ (Or.inr (Or.inr (Or.inl rfl)))]
      exact wf
    | some txt =>
      by_cases hdid : did = ""
      · rw [add_document_invalid _ _ _ _
          (Or.inr (Or.inl (show _ = some "" by rw [hdid])))]
        exact wf
      · by_cases htxt : txt = ""
        · rw [add_document_invalid _ _ _ _
            (Or.inr (Or.inr (Or.inr (show _ = some "" by rw [htxt]))))]
          exact wf
        · cases henc : encode ("passage: " ++ txt) with
          | none =>
            rw [add_document_encode_fail _ _ _ _ did txt rfl rfl hdid htxt henc]
            exact wf
          | some v =>
            rw [add_document_success _ _ _ _ did txt v rfl rfl hdid htxt henc]
            have hfreshD : keyMem st.documents did = false := hop did rfl
            have hnotin : did ∉ st.id_list := by
              rw [← wf.1]; exact keyMem_false_iff.mp hfreshD
            have hfreshE : keyMem st.embeddings did = false := by
              rw [keyMem_false_iff, wf.2.1]; exact hnotin
            refine ⟨?_, ?_, ?_, ?_⟩
            · dsimp only; rw [dictSet_fresh _ hfreshD, keys_append, wf.1]
            · dsimp only; rw [dictSet_fresh _ hfreshE, keys_append, wf.2.1]
            · dsimp only
              simp [List.nodup_append, wf.2.2.1, hnotin]
            · dsimp only
              rw [List.length_append, List.length_append, wf.2.2.2]
              rfl

theorem add_documents_batch_wf {encode : String → Option V} {normalize : V → V}
    {st : ServerState V} {docs : List ReqDoc}
    (wf : StateWF st) (hop : batchOk st docs) :
    StateWF (add_documents_batch encode normalize st docs).2 := by
  obtain ⟨hids, hnd, hfresh⟩ := hop
  by_cases hne : docs = []
  · subst hne
    exact wf
  · cases htxts : mapOpt (fun d => d.text?) docs with
    | none =>
      rw [add_documents_batch_abort hne (by rw [htxts]; rfl)]
      exact wf
    | some txts =>
      cases hembs : mapOpt (fun t => encode ("passage: " ++ t)) txts with
      | none =>
        rw [add_documents_batch_abort hne
          (by rw [htxts]; simp only [Option.some_bind]; exact hembs)]
        exact wf
      | some embs0 =>
        have hfresh2 : ∀ i ∈ docs.filterMap (fun d => d.id?),
            i ∉ keys st.documents ∧ i ∉ keys st.embeddings := by
          intro i hi
          have h1 : i ∉ keys st.documents := keyMem_false_iff.mp (hfresh i hi)
          refine ⟨h1, ?_⟩
          rw [wf.2.1, ← wf.1]
          exact h1
        obtain ⟨b1, b2, b3, b4, b5⟩ :=
          add_documents_batch_ok encode normalize st docs txts embs0
            hne htxts hembs hids hnd hfresh2
        have hids_len : (docs.filterMap (fun d => d.id?)).length = docs.length :=
          filterMap_length_of_forall_isSome hids
        refine ⟨?_, ?_, ?_, ?_⟩
        · rw [b2, b1, wf.1]
        · rw [b3, b1, wf.2.1]
        · rw [b1]
          rw [List.nodup_append]
          refine ⟨wf.2.2.1, hnd, ?_⟩
          intro a ha1 ha2
          have h1 := keyMem_false_iff.mp (hfresh a ha2)
          rw [wf.1] at h1
          exact h1 ha1
        · rw [b4, b1, List.length_append, List.length_append, wf.2.2.2,
            List.length_map, mapOpt_length hembs, mapOpt_length htxts, hids_len]

theorem stepOp_wf {encode : String → Option V} {normalize : V → V}
    {st : ServerState V} {op : Op}
    (wf : StateWF st) (hop : goodOp st op) :
    StateWF (stepOp encode normalize st op) := by
  cases op with
  | add req => exact add_document_wf wf hop
  | addBatch docs => exact add_documents_batch_wf wf hop
  | delete did => exact delete_document_wf wf
  | clear => exact emptyState_wf

theorem goodRun_wf {encode : String → Option V} {normalize : V → V} :
    ∀ {ops : List Op} {st : ServerState V}, StateWF st →
      goodRun encode normalize st ops →
      StateWF (ops.foldl (stepOp encode normalize) st)
  | [], _, wf, _ => wf
  | op :: ops, st, wf, h => by
    rw [List.foldl_cons]
    exact goodRun_wf (stepOp_wf wf h.1) h.2

theorem wf_countsEqual {st : ServerState V} (wf : StateWF st) :
    countsEqual st := by
  obtain ⟨hd, he, hnd, hlen⟩ := wf
  refine ⟨hlen.symm, ?_, ?_⟩
  · rw [hd, List.Nodup.dedup hnd]
  · rw [he, List.Nodup.dedup hnd]

/-! Further facts used by the normalisation and metadata claims. -/

theorem addBatchLoop_index :
    ∀ (pairs : List (ReqDoc × V)) (st : ServerState V),
      (addBatchLoop st pairs).1.index = st.index
  | [], _ => rfl
  | (d, w) :: rest, st => by
    cases hdid : d.id? with
    | none => simp [addBatchLoop, hdid]
    | some did =>
      cases htxt : d.text? with
      | none => simp [addBatchLoop, hdid, htxt]
      | some txt =>
        rw [addBatchLoop, hdid, htxt]
        exact addBatchLoop_index rest _

theorem add_documents_batch_index {encode : String → Option V}
    {normalize : V → V} {st : ServerState V} {docs : List ReqDoc}
    {txts : List String} {embs0 : List V}
    (hne : docs ≠ [])
    (htxts : mapOpt (fun d => d.text?) docs = some txts)
    (hembs : mapOpt (fun t => encode ("passage: " ++ t)) txts = some embs0) :
    (add_documents_batch encode normalize st docs).2.index
      = st.index ++ embs0.map normalize := by
  have hne' : docs.isEmpty = false := by
    cases docs with
    | nil => exact absurd rfl hne
    | cons _ _ => rfl
  rw [add_documents_batch, if_neg (by simp [hne']), htxts]
  dsimp only
  rw [hembs]
  dsimp only
  rcases hl : addBatchLoop
      ({ st with index := st.index ++ embs0.map normalize } : ServerState V)
      (docs.zip (embs0.map normalize)) with ⟨st2, b⟩
  have hidx := addBatchLoop_index (docs.zip (embs0.map normalize))
    ({ st with index := st.index ++ embs0.map normalize } : ServerState V)
  rw [hl] at hidx
  cases b <;> exact hidx

theorem mem_dictSet_self (m : List (String × α)) (k : String) (v : α) :
    (k, v) ∈ dictSet m k v := by
  by_cases h : keyMem m k
  · obtain ⟨p, hp, hpk⟩ := List.mem_map.mp (keyMem_iff.mp h)
    unfold dictSet
    rw [if_pos h]
    exact List.mem_map.mpr ⟨p, hp, by simp [hpk]⟩
  · rw [dictSet_fresh v (by simpa using h)]
    simp

theorem sumSq_nonneg (v : List ℝ) : 0 ≤ sumSq v := by
  unfold sumSq
  induction v with
  | nil => simp
  | cons x v ih =>
    simp only [List.map_cons, List.sum_cons]
    exact add_nonneg (mul_self_nonneg x) ih

theorem sumSq_pos {v : List ℝ} (h : ∃ x ∈ v, x ≠ 0) : 0 < sumSq v := by
  obtain ⟨x, hx, hx0⟩ := h
  have h1 : x * x ∈ v.map (fun y => y * y) := List.mem_map_of_mem _ hx
  have h2 : x * x ≤ sumSq v := by
    refine List.single_le_sum (fun y hy => ?_) _ h1
    obtain ⟨z, _, rfl⟩ := List.mem_map.mp hy
    exact mul_self_nonneg z
  exact lt_of_lt_of_le (mul_self_pos.mpr hx0) h2

theorem sumSq_map_div (v : List ℝ) (c : ℝ) :
    sumSq (v.map (fun x => x / c)) = sumSq v / (c * c) := by
  unfold sumSq
  induction v with
  | nil => simp
  | cons x v ih =>
    simp only [List.map_cons, List.sum_cons] at ih ⊢
    rw [div_mul_div_comm, ih, div_add_div_same]

theorem l2norm_normalizeL2 {v : List ℝ} (h : ∃ x ∈ v, x ≠ 0) :
    l2norm (normalizeL2 v) = 1 := by
  have hpos := sumSq_pos h
  unfold l2norm normalizeL2
  rw [sumSq_map_div, Real.mul_self_sqrt (le_of_lt hpos),
    div_self (ne_of_gt hpos), Real.sqrt_one]

theorem addBatchLoop_cache :
    ∀ (pairs : List (ReqDoc × V)) (st : ServerState V) (k : String),
      dictGet (addBatchLoop st pairs).1.embeddings k
        = dictGet st.embeddings k ∨
      ∃ p ∈ pairs,
        dictGet (addBatchLoop st pairs).1.embeddings k = some p.2
  | [], _, _ => Or.inl rfl
  | (d, w) :: rest, st, k => by
    cases hdid : d.id? with
    | none =>
      left
      rw [addBatchLoop, hdid]
    | some did =>
      cases htxt : d.text? with
      | none =>
        left
        rw [addBatchLoop, hdid, htxt]
      | some txt =>
        rw [addBatchLoop, hdid, htxt]
        rcases addBatchLoop_cache rest
          { st with
            documents := dictSet st.documents did ⟨txt, d.metadata?.getD []⟩
            id_list := st.id_list ++ [did]
            embeddings := dictSet st.embeddings did w } k with h | ⟨p, hp, h⟩
        · by_cases hk : k = did
          · right
            refine ⟨(d, w), List.mem_cons_self _ _, ?_⟩
            rw [h]
            dsimp only
            rw [hk]
            exact dictGet_dictSet_self _
          · left
            rw [h]
            dsimp only
            exact dictGet_dictSet_ne _ hk
        · exact Or.inr ⟨p, List.mem_cons_of_mem _ hp, h⟩

theorem add_documents_batch_cache {encode : String → Option V}
    {normalize : V → V} {st : ServerState V} {docs : List ReqDoc}
    {txts : List String} {embs0 : List V}
    (hne : docs ≠ [])
    (htxts : mapOpt (fun d => d.text?) docs = some txts)
    (hembs : mapOpt (fun t => encode ("passage: " ++ t)) txts = some embs0)
    (k : String) :
    dictGet (add_documents_batch encode normalize st docs).2.embeddings k
      = dictGet st.embeddings k ∨
    ∃ w0 ∈ embs0,
      dictGet (add_documents_batch encode normalize st docs).2.embeddings k
        = some (normalize w0) := by
  have hne' : docs.isEmpty = false := by
    cases docs with
    | nil => exact absurd rfl hne
    | cons _ _ => rfl
  rw [add_documents_batch, if_neg (by simp [hne']), htxts]
  dsimp only
  rw [hembs]
  dsimp only
  rcases hl : addBatchLoop
      ({ st with index := st.index ++ embs0.map normalize } : ServerState V)
      (docs.zip (embs0.map normalize)) with ⟨st2, b⟩
  have hc := addBatchLoop_cache (docs.zip (embs0.map normalize))
    ({ st with index := st.index ++ embs0.map normalize } : ServerState V) k
  rw [hl] at hc
  rcases hc with h | ⟨p, hp, h⟩
  · left
    cases b <;> exact h
  · obtain ⟨pd, pw⟩ := p
    have hzip := List.of_mem_zip hp
    obtain ⟨w0, hw0, hw⟩ := List.mem_map.mp hzip.2
    right
    refine ⟨w0, hw0, ?_⟩
    cases b <;> (dsimp only; rw [h, ← hw])

/-! The claims. -/

/-- C1 (counterexample): re-adding the id `"a"` from the empty state leaves
one document-store key and one embedding-cache key but two row-order
entries and two index rows, so after that sequence of adds the four counts
are not all equal; the claim as stated is false. -/
theorem C1_counterexample :
    ¬ countsEqual (runOps unitEncode unitNorm
      [Op.add ⟨some "a", some "t", none⟩,
       Op.add ⟨some "a", some "t", none⟩]) := by
  decide

/-- C1 (amended): after any sequence of add/add_batch/delete/clear
operations from the empty state in which every id successfully inserted by
an add is fresh and every batch carries ids on all documents, pairwise
distinct and fresh, the row-order length equals the index row count,
the number of document-store keys and the number of embedding-cache
keys. -/
theorem C1_counts_equal (encode : String → Option V) (normalize : V → V)
    (ops : List Op) (h : goodRun encode normalize emptyState ops) :
    countsEqual (runOps encode normalize ops) :=
  wf_countsEqual (goodRun_wf emptyState_wf h)

/-- Witness for C1 on a concrete benign run mixing all four operations. -/
theorem C1_witness :
    goodRun unitEncode unitNorm emptyState
      [Op.add ⟨some "a", some "ta", none⟩,
       Op.addBatch [⟨some "b", some "tb", none⟩, ⟨some "c", some "tc", none⟩],
       Op.delete "a", Op.clear,
       Op.add ⟨some "d", some "td", none⟩] ∧
    countsEqual (runOps unitEncode unitNorm
      [Op.add ⟨some "a", some "ta", none⟩,
       Op.addBatch [⟨some "b", some "tb", none⟩, ⟨some "c", some "tc", none⟩],
       Op.delete "a", Op.clear,
       Op.add ⟨some "d", some "td", none⟩]) :=
  ⟨by decide, C1_counts_equal _ _ _ (by decide)⟩

/-- C2 (counterexample): a batch whose single document has a text but no id
returns an error 500 while leaving the appended index row behind, so the
state observed after the error differs from the state before the call; the
claim that every erroring operation leaves the state unchanged is false. -/
theorem C2_counterexample :
    (add_documents_batch unitEncode unitNorm emptyState
      [⟨none, some "x", none⟩]).1 = BatchResp.error 500 ∧
    (add_documents_batch unitEncode unitNorm emptyState
      [⟨none, some "x", none⟩]).2 ≠ emptyState := by
  decide

/-- C2 (amended): for add and search an error response implies the state is
unchanged; for delete the same holds from any state satisfying the 1:1
row-order invariant; clear always succeeds and installs the empty state.
(add_batch is exempt: a document lacking an id errors only after the rows
were appended, as the counterexample shows.) -/
theorem C2_error_atomicity (encode : String → Option V) (normalize : V → V)
    (knn : List V → V → Nat → List (Int × ℚ)) :
    (∀ (st : ServerState V) (req : ReqDoc) (c : Nat),
      (add_document encode normalize st req).1 = .error c →
      (add_document encode normalize st req).2 = st) ∧
    (∀ (st : ServerState V) (q : Option String) (k : Option Nat) (c : Nat),
      (search encode knn st q k).1 = .error c →
      (search encode knn st q k).2 = st) ∧
    (∀ (st : ServerState V) (did : String) (c : Nat), StateWF st →
      (delete_document st did).1 = .error c →
      (delete_document st did).2 = st) ∧
    (∀ st : ServerState V, clear_index st = emptyState) :=
  ⟨fun _ _ _ h => add_document_error_state h,
   fun _ _ _ _ _ => rfl,
   fun _ _ _ wf h => delete_document_error_state wf h,
   fun _ => rfl⟩

/-- Witness for C2 on concrete erroring calls. -/
theorem C2_witness :
    ((add_document unitEncode unitNorm emptyState
        (⟨none, some "x", none⟩ : ReqDoc)).1 = AddResp.error 400 ∧
     StateWF (emptyState (V := Unit)) ∧
     (delete_document (emptyState (V := Unit)) "z").1 = DeleteResp.error 404) ∧
    (add_document unitEncode unitNorm emptyState
      (⟨none, some "x", none⟩ : ReqDoc)).2 = emptyState ∧
    (delete_document (emptyState (V := Unit)) "z").2 = emptyState :=
  ⟨⟨by decide, by decide, by decide⟩,
   (C2_error_atomicity unitEncode unitNorm noKnn).1 emptyState
     ⟨none, some "x", none⟩ 400 (by decide),
   (C2_error_atomicity unitEncode unitNorm noKnn).2.2.1 emptyState "z" 404
     (by decide) (by decide)⟩

/-- C3 (counterexample): from the reachable state produced by adding id
`"a"` twice, delete of `"a"` does not succeed (the rebuild raises a
KeyError and the handler returns a 500), so the claim that delete succeeds
from every state containing the id is false. -/
theorem C3_counterexample :
    keyMem (runOps unitEncode unitNorm
      [Op.add ⟨some "a", some "t", none⟩,
       Op.add ⟨some "a", some "t", none⟩]).documents "a" = true ∧
    (delete_document (runOps unitEncode unitNorm
      [Op.add ⟨some "a", some "t", none⟩,
       Op.add ⟨some "a", some "t", none⟩]) "a").1 ≠ DeleteResp.success := by
  decide

/-- C3 (amended): from every state satisfying the 1:1 row-order invariant
and containing id X, delete(X) succeeds, removes X from the document store,
removes the (only) occurrence of X from the row order, removes X from the
embedding cache, rebuilds the index from the cached vectors in the exact
order of the updated row order, preserves the relative order of the
remaining ids, and a subsequent search never returns X. -/
theorem C3_delete_correct (st : ServerState V) (did : String)
    (wf : StateWF st) (hmem : keyMem st.documents did = true) :
    (delete_document st did).1 = .success ∧
    (delete_document st did).2.documents = dictDel st.documents did ∧
    (delete_document st did).2.id_list = st.id_list.erase did ∧
    did ∉ (delete_document st did).2.id_list ∧
    (delete_document st did).2.embeddings = dictDel st.embeddings did ∧
    mapOpt (fun i => dictGet (delete_document st did).2.embeddings i)
      (delete_document st did).2.id_list
      = some (delete_document st did).2.index ∧
    List.Sublist (delete_document st did).2.id_list st.id_list ∧
    (∀ (encode : String → Option V) (knn : List V → V → Nat → List (Int × ℚ))
      (q : Option String) (k : Option Nat) (rs : List SearchResult),
      (search encode knn (delete_document st did).2 q k).1 = .ok rs →
      ∀ r ∈ rs, r.id ≠ did) := by
  obtain ⟨h1, h2, h3, h4, h5⟩ := delete_document_found wf hmem
  have hnotin : did ∉ (delete_document st did).2.id_list := by
    rw [h3]
    exact fun hx => ((wf.2.2.1).mem_erase_iff.mp hx).1 rfl
  refine ⟨h1, h2, h3, hnotin, h4, ?_, ?_, ?_⟩
  · rw [h3, h4]
    exact h5
  · rw [h3]
    exact List.erase_sublist did st.id_list
  · intro encode knn q k rs hok r hr he
    have hmem' := (search_ok_mem hok r hr).1
    rw [he] at hmem'
    exact hnotin hmem'

/-- Witness for C3 on a concrete two-document state. -/
theorem C3_witness :
    (StateWF twoDocState ∧ keyMem twoDocState.documents "a" = true) ∧
    (delete_document twoDocState "a").1 = DeleteResp.success :=
  ⟨⟨by decide, by decide⟩,
   (C3_delete_correct twoDocState "a" (by decide) (by decide)).1⟩

/-- C4: from every well-formed state already containing id X, a successful
add with id X appends a second row to the index and a second entry X to the
row order (X now occurs twice), while overwriting the document-store and
embedding-cache entries for X in place (the key sets are unchanged), so two
rows map to one document. -/
theorem C4_duplicate_add (encode : String → Option V) (normalize : V → V)
    (st : ServerState V) (req : ReqDoc) (did txt : String) (v : V)
    (wf : StateWF st) (hmem : keyMem st.documents did = true)
    (hid : req.id? = some did) (htxt : req.text? = some txt)
    (hdid : did ≠ "") (htxt0 : txt ≠ "")
    (henc : encode ("passage: " ++ txt) = some v) :
    (add_document encode normalize st req).1 = .success did ∧
    (add_document encode normalize st req).2.index
      = st.index ++ [normalize v] ∧
    (add_document encode normalize st req).2.id_list
      = st.id_list ++ [did] ∧
    (add_document encode normalize st req).2.id_list.count did = 2 ∧
    keys (add_document encode normalize st req).2.documents
      = keys st.documents ∧
    dictGet (add_document encode normalize st req).2.documents did
      = some ⟨txt, req.metadata?.getD []⟩ ∧
    keys (add_document encode normalize st req).2.embeddings
      = keys st.embeddings ∧
    dictGet (add_document encode normalize st req).2.embeddings did
      = some (normalize v) := by
  rw [add_document_success encode normalize st req did txt v
    hid htxt hdid htxt0 henc]
  dsimp only
  have hmemE : keyMem st.embeddings did = true := by
    rw [keyMem_iff, wf.2.1, ← wf.1]
    exact keyMem_iff.mp hmem
  have hmem_list : did ∈ st.id_list := by
    rw [← wf.1]
    exact keyMem_iff.mp hmem
  refine ⟨rfl, rfl, rfl, ?_, keys_dictSet_of_mem _ hmem, dictGet_dictSet_self _,
    keys_dictSet_of_mem _ hmemE, dictGet_dictSet_self _⟩
  rw [List.count_append, List.count_eq_one_of_mem wf.2.2.1 hmem_list]
  simp

/-- Witness for C4 on a concrete one-document state. -/
theorem C4_witness :
    (StateWF oneDocState ∧ keyMem oneDocState.documents "a" = true) ∧
    (add_document unitEncode unitNorm oneDocState
      ⟨some "a", some "t2", none⟩).2.id_list.count "a" = 2 :=
  ⟨⟨by decide, by decide⟩,
   (C4_duplicate_add unitEncode unitNorm oneDocState
     ⟨some "a", some "t2", none⟩ "a" "t2" ()
     (by decide) (by decide) rfl rfl (by decide) (by decide) rfl).2.2.2.1⟩

/-- C5: persisting the snapshot (index artifact plus state artifact) and
reloading it restores the very same engine state, so for any fixed query
the reloaded engine returns identical search results: same response, hence
same ids in the same order with equal distances. -/
theorem C5_persist_roundtrip (encode : String → Option V)
    (knn : List V → V → Nat → List (Int × ℚ)) (st : ServerState V)
    (q : Option String) (k : Option Nat) :
    init_faiss (some (save_state st)) = st ∧
    search encode knn (init_faiss (some (save_state st))) q k
      = search encode knn st q k := by
  constructor
  · cases st
    rfl
  · cases st
    rfl

/-- C6: add_batch is all-or-nothing with respect to encoding: for every
non-empty batch, if building the text list or encoding it fails (including
a document lacking a text field), the request errors with 500 and the
state — index rows, document store, row order, embedding cache — is
exactly the state before the call. -/
theorem C6_batch_atomic_encoding (encode : String → Option V)
    (normalize : V → V) (st : ServerState V) (docs : List ReqDoc)
    (hne : docs ≠ [])
    (henc : (mapOpt (fun d => d.text?) docs).bind
      (fun txts => mapOpt (fun t => encode ("passage: " ++ t)) txts) = none) :
    add_documents_batch encode normalize st docs = (.error 500, st) :=
  add_documents_batch_abort hne henc

/-- Witness for C6 on a batch whose document lacks a text field. -/
theorem C6_witness :
    (([⟨some "a", none, none⟩] : List ReqDoc) ≠ [] ∧
      (mapOpt (fun d => d.text?)
        ([⟨some "a", none, none⟩] : List ReqDoc)).bind
        (fun txts => mapOpt (fun t => unitEncode ("passage: " ++ t)) txts)
        = none) ∧
    add_documents_batch unitEncode unitNorm emptyState
      [⟨some "a", none, none⟩] = (BatchResp.error 500, emptyState) :=
  ⟨⟨by decide, by decide⟩,
   C6_batch_atomic_encoding unitEncode unitNorm emptyState
     [⟨some "a", none, none⟩] (by decide) (by decide)⟩

/-- C7: for every request whose id or text is missing or empty, add fails
with a 400 and the state is unchanged; the result does not depend on the
encoder or the normaliser at all, so nothing is encoded or stored. -/
theorem C7_invalid_input (st : ServerState V) (req : ReqDoc)
    (h : req.id? = none ∨ req.id? = some "" ∨ req.text? = none ∨
      req.text? = some "") :
    ∀ (encode : String → Option V) (normalize : V → V),
      add_document encode normalize st req = (.error 400, st) :=
  fun encode normalize => add_document_invalid encode normalize st req h

/-- Witness for C7 on a request with a missing id. -/
theorem C7_witness :
    ((⟨none, some "x", none⟩ : ReqDoc).id? = none ∨
      (⟨none, some "x", none⟩ : ReqDoc).id? = some "" ∨
      (⟨none, some "x", none⟩ : ReqDoc).text? = none ∨
      (⟨none, some "x", none⟩ : ReqDoc).text? = some "") ∧
    add_document unitEncode unitNorm emptyState ⟨none, some "x", none⟩
      = (AddResp.error 400, emptyState) :=
  ⟨Or.inl rfl,
   C7_invalid_input emptyState ⟨none, some "x", none⟩ (Or.inl rfl)
     unitEncode unitNorm⟩

/-- C8: for every non-empty query whose encoding succeeds, a search against
an index with zero rows succeeds with an empty result list (and leaves the
state unchanged); it is not an error. -/
theorem C8_search_empty_index (encode : String → Option V)
    (knn : List V → V → Nat → List (Int × ℚ)) (st : ServerState V)
    (q : String) (k : Option Nat) (qv : V)
    (hq : q ≠ "") (hempty : st.index.length = 0)
    (henc : encode ("query: " ++ q) = some qv) :
    search encode knn st (some q) k = (.ok [], st) := by
  simp [search, hq, henc, hempty]

/-- Witness for C8 on the empty state. -/
theorem C8_witness :
    ("q" ≠ "" ∧ (emptyState (V := Unit)).index.length = 0 ∧
      unitEncode ("query: " ++ "q") = some ()) ∧
    search unitEncode noKnn emptyState (some "q") none
      = (SearchResp.ok [], emptyState) :=
  ⟨⟨by decide, rfl, rfl⟩,
   C8_search_empty_index unitEncode noKnn emptyState "q" none ()
     (by decide) rfl rfl⟩

/-- C9: every vector with a nonzero entry has, after the engine's
L2-normalisation, norm exactly 1 and hence within tolerance 1/10000 of 1;
a successful add stores exactly that normalised vector in the embedding
cache and appends it as the new index row; a successful batch encode
appends exactly the normalised vectors to the index; and every embedding
cache entry after a batch call is either a pre-existing entry or the
L2-normalisation of one of the batch's encoded vectors, hence of unit norm
within the tolerance whenever that vector is nonzero. -/
theorem C9_normalized_storage (v : List ℝ) (hv : ∃ x ∈ v, x ≠ 0) :
    |l2norm (normalizeL2 v) - 1| ≤ 1 / 10000 ∧
    (∀ (encode : String → Option (List ℝ)) (st : ServerState (List ℝ))
      (req : ReqDoc) (did txt : String),
      req.id? = some did → req.text? = some txt → did ≠ "" → txt ≠ "" →
      encode ("passage: " ++ txt) = some v →
      dictGet (add_document encode normalizeL2 st req).2.embeddings did
        = some (normalizeL2 v) ∧
      (add_document encode normalizeL2 st req).2.index
        = st.index ++ [normalizeL2 v]) ∧
    (∀ (encode : String → Option (List ℝ)) (st : ServerState (List ℝ))
      (docs : List ReqDoc) (txts : List String) (embs0 : List (List ℝ)),
      docs ≠ [] → mapOpt (fun d => d.text?) docs = some txts →
      mapOpt (fun t => encode ("passage: " ++ t)) txts = some embs0 →
      (add_documents_batch encode normalizeL2 st docs).2.index
        = st.index ++ embs0.map normalizeL2) ∧
    (∀ (encode : String → Option (List ℝ)) (st : ServerState (List ℝ))
      (docs : List ReqDoc) (txts : List String) (embs0 : List (List ℝ))
      (k : String) (w : List ℝ),
      docs ≠ [] → mapOpt (fun d => d.text?) docs = some txts →
      mapOpt (fun t => encode ("passage: " ++ t)) txts = some embs0 →
      dictGet (add_documents_batch encode normalizeL2 st docs).2.embeddings k
        = some w →
      dictGet st.embeddings k = some w ∨
      ∃ w0 ∈ embs0, w = normalizeL2 w0 ∧
        ((∃ x ∈ w0, x ≠ 0) → |l2norm w - 1| ≤ 1 / 10000)) := by
  refine ⟨?_, ?_, ?_, ?_⟩
  · rw [l2norm_normalizeL2 hv]
    norm_num
  · intro encode st req did txt hid htxt hdid htxt0 henc
    rw [add_document_success encode normalizeL2 st req did txt v
      hid htxt hdid htxt0 henc]
    exact ⟨dictGet_dictSet_self _, rfl⟩
  · intro encode st docs txts embs0 hne htxts hembs
    exact add_documents_batch_index hne htxts hembs
  · intro encode st docs txts embs0 k w hne htxts hembs hget
    rcases add_documents_batch_cache hne htxts hembs k with h | ⟨w0, hw0, h⟩
    · left
      rw [← hget]
      exact h.symm
    · right
      have hww : w = normalizeL2 w0 := Option.some.inj (hget.symm.trans h)
      refine ⟨w0, hw0, hww, ?_⟩
      intro hnz
      rw [hww, l2norm_normalizeL2 hnz]
      norm_num

/-- Witness for C9 at the one-entry vector `[1]`. -/
theorem C9_witness :
    (∃ x ∈ [(1 : ℝ)], x ≠ 0) ∧
    |l2norm (normalizeL2 [(1 : ℝ)]) - 1| ≤ 1 / 10000 :=
  ⟨⟨1, List.mem_singleton.mpr rfl, one_ne_zero⟩,
   (C9_normalized_storage [(1 : ℝ)]
     ⟨1, List.mem_singleton.mpr rfl, one_ne_zero⟩).1⟩

/-- C10: a document added without a metadata field is stored with the empty
mapping as metadata; any search hit for that id carries the empty metadata
mapping; the document listing projects it with the sentinel defaults and
the raw text as content; and a batch document without a metadata field is
likewise stored with the empty mapping. -/
theorem C10_default_metadata (encode : String → Option V) (normalize : V → V)
    (st : ServerState V) (did txt : String) (v : V)
    (hdid : did ≠ "") (htxt : txt ≠ "")
    (henc : encode ("passage: " ++ txt) = some v) :
    dictGet (add_document encode normalize st
        ⟨some did, some txt, none⟩).2.documents did = some ⟨txt, []⟩ ∧
    (∀ (encode2 : String → Option V)
      (knn : List V → V → Nat → List (Int × ℚ))
      (q : Option String) (k : Option Nat) (rs : List SearchResult),
      (search encode2 knn
        (add_document encode normalize st ⟨some did, some txt, none⟩).2
        q k).1 = .ok rs →
      ∀ r ∈ rs, r.id = did → r.metadata = []) ∧
    (⟨did, "Untitled", txt, "General", "System"⟩ : DocRow)
      ∈ get_documents
        (add_document encode normalize st ⟨some did, some txt, none⟩).2 ∧
    (∀ (docs : List ReqDoc) (txts : List String) (embs0 : List V)
      (d : ReqDoc) (i t : String),
      docs ≠ [] → mapOpt (fun d2 => d2.text?) docs = some txts →
      mapOpt (fun t2 => encode ("passage: " ++ t2)) txts = some embs0 →
      (∀ d2 ∈ docs, d2.id?.isSome) →
      (docs.filterMap (fun d2 => d2.id?)).Nodup →
      (∀ j ∈ docs.filterMap (fun d2 => d2.id?),
        j ∉ keys st.documents ∧ j ∉ keys st.embeddings) →
      d ∈ docs → d.id? = some i → d.text? = some t → d.metadata? = none →
      dictGet (add_documents_batch encode normalize st docs).2.documents i
        = some ⟨t, []⟩) := by
  have hsucc := add_document_success encode normalize st
    ⟨some did, some txt, none⟩ did txt v rfl rfl hdid htxt henc
  have hget : dictGet (add_document encode normalize st
      ⟨some did, some txt, none⟩).2.documents did = some ⟨txt, []⟩ := by
    rw [hsucc]
    exact dictGet_dictSet_self _
  refine ⟨hget, ?_, ?_, ?_⟩
  · intro encode2 knn q k rs hok r hr hrid
    have hmem := (search_ok_mem hok r hr).2
    rw [hrid] at hmem
    have he := Option.some.inj (hget.symm.trans hmem)
    exact (congrArg StoredDoc.metadata he).symm
  · have hmemrow : (did, (⟨txt, []⟩ : StoredDoc))
        ∈ (add_document encode normalize st
          ⟨some did, some txt, none⟩).2.documents := by
      rw [hsucc]
      exact mem_dictSet_self _ _ _
    exact List.mem_map.mpr ⟨(did, ⟨txt, []⟩), hmemrow, rfl⟩
  · intro docs txts embs0 d i t hne htxts hembs hids hnd hfresh hd hdi hdt hdm
    have hres := (add_documents_batch_ok encode normalize st docs txts embs0
      hne htxts hembs hids hnd hfresh).2.2.2.2 d hd i t hdi hdt
    rw [hdm] at hres
    exact hres

/-- Witness for C10 on the empty state over the unit vector type. -/
theorem C10_witness :
    ("a" ≠ "" ∧ "t" ≠ "" ∧ unitEncode ("passage: " ++ "t") = some ()) ∧
    dictGet (add_document unitEncode unitNorm emptyState
      ⟨some "a", some "t", none⟩).2.documents "a" = some ⟨"t", []⟩ :=
  ⟨⟨by decide, by decide, rfl⟩,
   (C10_default_metadata unitEncode unitNorm emptyState "a" "t" ()
     (by decide) (by decide) rfl).1⟩

end EmbSrv
